import Mathlib

/-!
Verification of `Introduction/hello.c`

The file embeds the three exported C functions `hello`, `sqr` and `outputarg`
as state-passing Lean functions over a small model of the C machine:
a finite byte-addressed memory with unmapped holes and a write permission
per byte, and the byte sequence written to standard output. The type `double`
is IEEE-754 binary64 and its product is rounded to nearest, ties to even.

An invalid access (unmapped byte, read-only byte on a store, misaligned
`int`) is undefined behaviour in C; the model reports it as a `Fault`.
-/

namespace Hello

/-! ## Machine model -/

/-- One byte of memory (`unsigned char`). -/
abbrev Byte := Fin 256

/-- A mapped byte: its value and whether it may be stored to. -/
structure Cell where
  writable : Bool
  val : Byte
deriving DecidableEq, Repr

/-- Memory: the byte at address `a` is `mem[a]?`; `none` inside the list and
every address past its end are unmapped. -/
abbrev Memory := List (Option Cell)

/-- The observable machine state: memory and the bytes written to `stdout`. -/
structure State where
  mem : Memory
  stdout : List Byte
deriving DecidableEq, Repr

/-- The ways an execution leaves defined behaviour. -/
inductive Fault where
  | segfault
  | misaligned
  | badFormat
deriving DecidableEq, Repr

deriving instance DecidableEq for Except

/-- A C function body: from a state to a fault or a result and a new state. -/
abbrev Exec (α : Type) := State → Except Fault (α × State)

/-- Byte order of the target. -/
inductive Endian where
  | little
  | big
deriving DecidableEq, Repr

/-- Load one byte. -/
def readByte (mem : Memory) (a : Nat) : Except Fault Byte :=
  match mem[a]? with
  | some (some c) => .ok c.val
  | _ => .error .segfault

/-- Whether address `a` is mapped and writable. -/
def writableAt (mem : Memory) (a : Nat) : Bool :=
  match mem[a]? with
  | some (some c) => c.writable
  | _ => false

/-- Store one byte; the permission of the cell is kept. -/
def writeByte (mem : Memory) (a : Nat) (b : Byte) : Except Fault Memory :=
  match mem[a]? with
  | some (some c) =>
    if c.writable then .ok (mem.set a (some { c with val := b })) else .error .segfault
  | _ => .error .segfault

/-- Store consecutive bytes starting at `a`. -/
def storeBytes (mem : Memory) (a : Nat) : List Byte → Except Fault Memory
  | [] => .ok mem
  | b :: bs =>
    match writeByte mem a b with
    | .ok m => storeBytes m (a + 1) bs
    | .error f => .error f

/-- Load `n` consecutive bytes starting at `a`. -/
def loadBytes (mem : Memory) (a : Nat) : Nat → Except Fault (List Byte)
  | 0 => .ok []
  | n + 1 =>
    match readByte mem a with
    | .ok b =>
      match loadBytes mem (a + 1) n with
      | .ok bs => .ok (b :: bs)
      | .error f => .error f
    | .error f => .error f

/-- Size and alignment of `int` (32 bits). -/
def intSize : Nat := 4

/-- The four bytes of a 32-bit two's complement `int`, in memory order. -/
def encodeInt (e : Endian) (v : Int) : List Byte :=
  let u : Nat := (v % 2 ^ 32).toNat
  let le : List Byte :=
    [Fin.ofNat (u % 256), Fin.ofNat (u / 2 ^ 8 % 256),
     Fin.ofNat (u / 2 ^ 16 % 256), Fin.ofNat (u / 2 ^ 24 % 256)]
  match e with
  | .little => le
  | .big => le.reverse

/-- The unsigned value of a little-endian byte sequence. -/
def unsignedLE : List Byte → Nat
  | [] => 0
  | b :: bs => b.val + 256 * unsignedLE bs

/-- The `int` held by four bytes in memory order. -/
def decodeInt (e : Endian) (bs : List Byte) : Int :=
  let u : Nat :=
    match e with
    | .little => unsignedLE bs
    | .big => unsignedLE bs.reverse
  if u < 2 ^ 31 then (u : Int) else (u : Int) - 2 ^ 32

/-- The C lvalue read `*p` for `int *p`. -/
def loadInt (e : Endian) (mem : Memory) (p : Nat) : Except Fault Int :=
  if p % intSize = 0 then
    match loadBytes mem p intSize with
    | .ok bs => .ok (decodeInt e bs)
    | .error f => .error f
  else .error .misaligned

/-- The C assignment `*p = v` for `int *p`. -/
def storeInt (e : Endian) (mem : Memory) (p : Nat) (v : Int) : Except Fault Memory :=
  if p % intSize = 0 then storeBytes mem p (encodeInt e v) else .error .misaligned

/-- The bytes of a C string starting at the head of a memory suffix, without
the terminating NUL; `none` when an unmapped byte or the end of memory comes
before a NUL. -/
def scanCStr : List (Option Cell) → Option (List Byte)
  | [] => none
  | none :: _ => none
  | some c :: rest =>
    if c.val = 0 then some []
    else
      match scanCStr rest with
      | some s => some (c.val :: s)
      | none => none

/-- Read the NUL-terminated string at address `a`. -/
def loadCStr (mem : Memory) (a : Nat) : Except Fault (List Byte) :=
  match scanCStr (mem.drop a) with
  | some s => .ok s
  | none => .error .segfault

/-- The bytes of a string literal of the source. -/
def bytesOf (s : String) : List Byte :=
  s.toList.map (fun c => Fin.ofNat c.toNat)

/-- The output of `printf` for a format and its pointer arguments: ordinary
bytes are copied, `%s` prints the C string its argument points to, `%%`
prints a percent sign; other directives are outside the model. -/
def printfOut (mem : Memory) : List Byte → List Nat → Except Fault (List Byte)
  | [], _ => .ok []
  | c :: fmt, args =>
    if c = 37 then
      match fmt with
      | [] => .error .badFormat
      | d :: fmt' =>
        if d = 115 then
          match args with
          | [] => .error .badFormat
          | a :: args' =>
            match loadCStr mem a with
            | .ok s =>
              match printfOut mem fmt' args' with
              | .ok rest => .ok (s ++ rest)
              | .error f => .error f
            | .error f => .error f
        else if d = 37 then
          match printfOut mem fmt' args with
          | .ok rest => .ok (37 :: rest)
          | .error f => .error f
        else .error .badFormat
    else
      match printfOut mem fmt args with
      | .ok rest => .ok (c :: rest)
      | .error f => .error f

/-- The libc call `printf(fmt, args...)`: appends the formatted bytes to
`stdout` and returns their number. The stream is taken to accept every byte
(no output error), and no limit is put on the length of one call. -/
def printf (fmt : List Byte) (args : List Nat) : Exec Nat := fun st =>
  match printfOut st.mem fmt args with
  | .ok out => .ok (out.length, { st with stdout := st.stdout ++ out })
  | .error f => .error f

/-! ## Double-precision arithmetic -/

/-- Modelled from the spec: the C type `double`, which `hello.c` uses and does
not declare, as an IEEE-754 binary64 datum (the spec's "64-bit float",
"per IEEE-754"). A finite value has a sign, a biased exponent field below
2047 and a 52-bit fraction field; exponent field 0 holds the zeros and the
subnormal numbers. All NaNs are one value: IEEE-754 does not fix the sign and
payload of a NaN result. -/
inductive Double where
  | fin (sign : Bool) (exp : Fin 2047) (frac : Fin (2 ^ 52))
  | inf (sign : Bool)
  | nan
deriving DecidableEq, Repr

/-- The magnitude of the finite double with exponent field `e` and fraction
field `f`, in units of `2^-1074`: `|x| = magOf e f * 2^-1074`. -/
def magOf (e f : Nat) : Nat :=
  if e = 0 then f else (2 ^ 52 + f) * 2 ^ (e - 1)

/-- The position of a finite double among the non-negative doubles in
increasing order: its bit pattern without the sign bit. -/
def ordOf (e : Fin 2047) (f : Fin (2 ^ 52)) : Nat := e.val * 2 ^ 52 + f.val

/-- The magnitude, in units of `2^-1074`, of the double at position `k`. -/
def magOrd (k : Nat) : Nat := magOf (k / 2 ^ 52) (k % 2 ^ 52)

/-- The double of sign `s` at position `k`; the positions from `2047 * 2^52`
on are past the largest finite double and give an infinity. -/
def ofOrd (s : Bool) (k : Nat) : Double :=
  if h : k < 2047 * 2 ^ 52 then
    .fin s ⟨k / 2 ^ 52, Nat.div_lt_of_lt_mul (by rw [Nat.mul_comm]; exact h)⟩
      ⟨k % 2 ^ 52, Nat.mod_lt _ (Nat.two_pow_pos 52)⟩
  else .inf s

/-- Binary logarithm by repeated halving, at most `fuel` times. -/
def log2F : Nat → Nat → Nat
  | 0, _ => 0
  | fuel + 1, n => if n < 2 then 0 else log2F fuel (n / 2) + 1

/-- The position of the leading bit of `n` (0 for `n = 0`); `n` halvings
always suffice. -/
def ilog2 (n : Nat) : Nat := log2F n n

/-- Modelled from the spec: IEEE-754 roundTiesToEven. For the exact value
`P * 2^-2148` the position of the double it rounds to: the spacing of the
doubles around `P` is `q` (with `c = 0` up to the second binade, where the
spacing is the subnormal one), `P` is cut to a multiple of `q` and goes up
when the remainder is above half of `q`, or is half of `q` and the quotient
is odd. A carry out of the significand moves to the next binade by itself. -/
def roundOrd (P : Nat) : Nat :=
  let c := ilog2 P - 1126
  let q := 2 ^ (1074 + c)
  let m0 := P / q
  let r := P % q
  let m := if q < 2 * r ∨ (2 * r = q ∧ m0 % 2 = 1) then m0 + 1 else m0
  c * 2 ^ 52 + m

/-- Modelled from the spec: the C operator `*` on `double`, which the source
uses, as IEEE-754 binary64 multiplication in the default floating-point
environment (roundTiesToEven, no traps). A NaN operand gives NaN, zero times
infinity gives NaN, the sign of every other result is the exclusive or of the
signs, and the product of two finite values is their exact product (here in
units of `2^-2148`) rounded once. -/
def Double.mul : Double → Double → Double
  | .nan, _ => .nan
  | _, .nan => .nan
  | .inf s, .inf t => .inf (xor s t)
  | .inf s, .fin t e f => if magOf e f = 0 then .nan else .inf (xor s t)
  | .fin s e f, .inf t => if magOf e f = 0 then .nan else .inf (xor s t)
  | .fin s e f, .fin t e' f' => ofOrd (xor s t) (roundOrd (magOf e f * magOf e' f'))

/-- The double `+0.0`. -/
def Double.posZero : Double := .fin false 0 0

/-- The double `-2.0` (bits `0xC000000000000000`). -/
def Double.negTwo : Double := .fin true 1024 0

/-- The double `4.0` (bits `0x4010000000000000`). -/
def Double.four : Double := .fin false 1025 0

/-- The doubles `1e200` (bits `0x6974E718D7D7625A`) and, with `s` set,
`-1e200`. -/
def Double.tenPow200 (s : Bool) : Double := .fin s 1687 0x4E718D7D7625A

/-! ### IEEE-754 multiplication as the standard words it -/

/-- The distance of two naturals. -/
def absDiff (a b : Nat) : Nat := (a - b) + (b - a)

/-- The magnitude of the double at position `k` in units of `2^-2148`, the
unit of an exact product. -/
def latt (k : Nat) : Nat := magOrd k * 2 ^ 1074

/-- The spec's "IEEE-754" rounding of a product, as the standard states
roundTiesToEven: `r` is the rounding of the exact value of sign `s` and
magnitude `P * 2^-2148` when
* a magnitude of at least `2^1024 - 2^970` (here `2^3172 - 2^3118`) gives
  the infinity of sign `s`;
* below that, `r` is a finite double of sign `s` that no finite double is
  nearer to the exact value than, and when another finite double is equally
  near, the last bit of the significand of `r` is 0.

Distances are taken between magnitudes, in units of `2^-2148`: a double of
the other sign is never nearer than the one of sign `s` and the same
magnitude. -/
def RoundsTo (s : Bool) (P : Nat) (r : Double) : Prop :=
  (2 ^ 3172 - 2 ^ 3118 ≤ P → r = .inf s) ∧
  (P < 2 ^ 3172 - 2 ^ 3118 → ∃ (e : Fin 2047) (f : Fin (2 ^ 52)), r = .fin s e f ∧
    (∀ (e' : Fin 2047) (f' : Fin (2 ^ 52)),
      absDiff (magOf e f * 2 ^ 1074) P ≤ absDiff (magOf e' f' * 2 ^ 1074) P) ∧
    (∀ (e' : Fin 2047) (f' : Fin (2 ^ 52)), (e', f') ≠ (e, f) →
      absDiff (magOf e' f' * 2 ^ 1074) P = absDiff (magOf e f * 2 ^ 1074) P →
        f.val % 2 = 0))

/-- The spec's "IEEE-754 double product": `r` is the product of `x` and `y`
as the standard defines it, without reference to `Double.mul`. -/
def IsIEEEProduct : Double → Double → Double → Prop
  | .nan, _, r => r = .nan
  | _, .nan, r => r = .nan
  | .inf s, .inf t, r => r = .inf (xor s t)
  | .inf s, .fin t e f, r =>
    (magOf e f = 0 → r = .nan) ∧ (magOf e f ≠ 0 → r = .inf (xor s t))
  | .fin s e f, .inf t, r =>
    (magOf e f = 0 → r = .nan) ∧ (magOf e f ≠ 0 → r = .inf (xor s t))
  | .fin s e f, .fin t e' f', r => RoundsTo (xor s t) (magOf e f * magOf e' f') r

/-! ## The functions of `hello.c` -/

/-- `void hello(char *name) { printf("Hello, %s!\n", name); }` -/
def hello (name : Nat) : Exec Unit := fun st =>
  match printf (bytesOf "Hello, %s!\n") [name] st with
  | .ok (_, st') => .ok ((), st')
  | .error f => .error f

/-- `double sqr(double x) { return x*x; }`. The IEEE status flags a
multiplication raises are neither memory nor output and are not part of
`State`. -/
def sqr (x : Double) : Exec Double := fun st =>
  .ok (Double.mul x x, st)

/-- `void outputarg(int *val) { *val = 42; }` -/
def outputarg (e : Endian) (val : Nat) : Exec Unit := fun st =>
  match storeInt e st.mem val 42 with
  | .ok m => .ok ((), { st with mem := m })
  | .error f => .error f

/-! ## Validity of pointers -/

/-- A valid writable `int` location: aligned, all four bytes mapped and
writable. -/
def ValidIntLoc (mem : Memory) (p : Nat) : Prop :=
  p % intSize = 0 ∧ ∀ i, i < intSize → writableAt mem (p + i) = true

instance (mem : Memory) (p : Nat) : Decidable (ValidIntLoc mem p) := by
  unfold ValidIntLoc; infer_instance

/-- Memory holds at `p` the bytes `s`, none of them NUL, followed by a NUL:
a valid NUL-terminated buffer with content `s`. -/
def CStrAt (mem : Memory) (p : Nat) (s : List Byte) : Prop :=
  (∀ i, i < s.length → s[i]? ≠ some 0 ∧ readByte mem (p + i) = (s[i]?).elim (.error .segfault) .ok)
    ∧ readByte mem (p + s.length) = .ok 0

instance (mem : Memory) (p : Nat) (s : List Byte) : Decidable (CStrAt mem p s) := by
  unfold CStrAt; infer_instance

/-! ## Example states -/

/-- A state with addresses 0-3 unmapped, a writable `int` at 4, the read-only
string `"World"` at 8 with its NUL at 13, and a further byte `'A'` at 14. -/
def demoState : State :=
  { mem := [none, none, none, none] ++ List.replicate 4 (some ⟨true, 7⟩)
      ++ (bytesOf "World").map (fun b => some ⟨false, b⟩)
      ++ [some ⟨false, 0⟩, some ⟨false, 65⟩],
    stdout := bytesOf "> " }

/-- A state with the writable string `"World"` at 1, its NUL at 6, and a
further byte `'Z'` at 7. -/
def otherState : State :=
  { mem := [none] ++ (bytesOf "World").map (fun b => some ⟨true, b⟩)
      ++ [some ⟨true, 0⟩, some ⟨true, 90⟩],
    stdout := [] }

/-! ## Memory lemmas -/

theorem set_same {α : Type} (l : List α) (i : Nat) (x : α) (h : l[i]? = some x) :
    l.set i x = l := by
  apply List.ext_getElem?
  intro j
  rw [List.getElem?_set]
  by_cases hij : i = j
  · subst hij
    have hlt : i < l.length := (List.getElem?_eq_some.mp h).1
    simp [hlt, h]
  · simp [hij]

theorem writeByte_ok (mem : Memory) (a : Nat) (b : Byte) (h : writableAt mem a = true) :
    ∃ c, mem[a]? = some (some c) ∧ c.writable = true ∧
      writeByte mem a b = .ok (mem.set a (some { c with val := b })) := by
  unfold writableAt at h
  unfold writeByte
  split at h
  · next c hc => exact ⟨c, hc, h, by simp [hc, h]⟩
  · simp at h

theorem writeByte_inv (mem m : Memory) (a : Nat) (b : Byte) (h : writeByte mem a b = .ok m) :
    ∃ c, mem[a]? = some (some c) ∧ c.writable = true ∧
      m = mem.set a (some { c with val := b }) := by
  unfold writeByte at h
  split at h
  · next c hc =>
    by_cases hw : c.writable = true
    · rw [if_pos hw] at h
      exact ⟨c, hc, hw, (Except.ok.inj h).symm⟩
    · rw [if_neg hw] at h
      exact absurd h (by simp)
  · simp at h

theorem writableAt_set (mem : Memory) (a : Nat) (c : Cell) (b : Byte)
    (hc : mem[a]? = some (some c)) (a' : Nat) :
    writableAt (mem.set a (some { c with val := b })) a' = writableAt mem a' := by
  unfold writableAt
  by_cases h : a = a'
  · subst h
    have hlt : a < mem.length := (List.getElem?_eq_some.mp hc).1
    simp [List.getElem?_set_self hlt, hc]
  · simp [List.getElem?_set_ne h]

theorem readByte_set_self (mem : Memory) (a : Nat) (c : Cell) (b : Byte)
    (hc : mem[a]? = some (some c)) :
    readByte (mem.set a (some { c with val := b })) a = .ok b := by
  have hlt : a < mem.length := (List.getElem?_eq_some.mp hc).1
  simp [readByte, List.getElem?_set_self hlt]

/-- What a successful `storeBytes` leaves: same size, same permissions, the
bytes outside the stored range untouched, the stored bytes readable back. -/
theorem storeBytes_inv (bs : List Byte) : ∀ (mem m : Memory) (a : Nat),
    storeBytes mem a bs = .ok m →
      m.length = mem.length ∧ (∀ a', writableAt m a' = writableAt mem a') ∧
      (∀ a', a' < a ∨ a + bs.length ≤ a' → m[a']? = mem[a']?) ∧
      loadBytes m a bs.length = .ok bs := by
  induction bs with
  | nil =>
    intro mem m a h
    simp [storeBytes] at h
    subst h
    simp [loadBytes]
  | cons b bs ih =>
    intro mem m a h
    simp only [storeBytes] at h
    split at h
    · next m1 h1 =>
      obtain ⟨c, hc, _, hm1⟩ := writeByte_inv mem m1 a b h1
      obtain ⟨hlen, hperm, hframe, hload⟩ := ih m1 m (a + 1) h
      refine ⟨?_, ?_, ?_, ?_⟩
      · rw [hlen, hm1, List.length_set]
      · intro a'
        rw [hperm, hm1, writableAt_set mem a c b hc]
      · intro a' ha'
        have hne : a ≠ a' := by
          rcases ha' with ha' | ha'
          · omega
          · simp only [List.length_cons] at ha'; omega
        rw [hframe a' (by simp only [List.length_cons] at ha'; omega), hm1,
          List.getElem?_set_ne hne]
      · have hra : readByte m a = .ok b := by
          unfold readByte
          rw [hframe a (Or.inl (Nat.lt_succ_self a)), hm1]
          exact readByte_set_self mem a c b hc
        simp only [List.length_cons, loadBytes, hra, hload]
    · simp at h

/-- Storing into a writable range succeeds. -/
theorem storeBytes_ok (bs : List Byte) : ∀ (mem : Memory) (a : Nat),
    (∀ i, i < bs.length → writableAt mem (a + i) = true) →
      ∃ m, storeBytes mem a bs = .ok m := by
  induction bs with
  | nil => intro mem a _; exact ⟨mem, rfl⟩
  | cons b bs ih =>
    intro mem a h
    obtain ⟨c, hc, _, hw⟩ := writeByte_ok mem a b (by simpa using h 0 (by simp))
    have h' : ∀ i, i < bs.length →
        writableAt (mem.set a (some { c with val := b })) (a + 1 + i) = true := by
      intro i hi
      rw [writableAt_set mem a c b hc]
      have := h (i + 1) (by simp only [List.length_cons]; omega)
      rwa [show a + 1 + i = a + (i + 1) by omega]
    obtain ⟨m, hm⟩ := ih _ (a + 1) h'
    exact ⟨m, by simp only [storeBytes, hw, hm]⟩

/-- Storing again the bytes a store has just written changes nothing. -/
theorem storeBytes_again (bs : List Byte) : ∀ (mem m : Memory) (a : Nat),
    storeBytes mem a bs = .ok m → storeBytes m a bs = .ok m := by
  induction bs with
  | nil => intro mem m a _; rfl
  | cons b bs ih =>
    intro mem m a h
    simp only [storeBytes] at h
    split at h
    · next m1 h1 =>
      obtain ⟨c, hc, hcw, hm1⟩ := writeByte_inv mem m1 a b h1
      obtain ⟨_, _, hframe, _⟩ := storeBytes_inv bs m1 m (a + 1) h
      have hlt : a < mem.length := (List.getElem?_eq_some.mp hc).1
      have hma : m[a]? = some (some { c with val := b }) := by
        rw [hframe a (Or.inl (Nat.lt_succ_self a)), hm1, List.getElem?_set_self hlt]
      have hwr : writeByte m a b = .ok m := by
        unfold writeByte
        rw [hma]
        simp only
        rw [if_pos hcw, set_same m a _ hma]
      simp only [storeBytes, hwr]
      exact ih m1 m (a + 1) h
    · simp at h

theorem decode_encode_42 (e : Endian) : decodeInt e (encodeInt e 42) = 42 := by
  cases e <;> decide

theorem encodeInt_length (e : Endian) (v : Int) : (encodeInt e v).length = intSize := by
  cases e <;> simp [encodeInt, intSize]

/-! ## C string lemmas -/

theorem readByte_inv (mem : Memory) (a : Nat) (b : Byte) (h : readByte mem a = .ok b) :
    ∃ c : Cell, mem[a]? = some (some c) ∧ c.val = b := by
  unfold readByte at h
  split at h
  · next c hc => exact ⟨c, hc, Except.ok.inj h⟩
  · simp at h

theorem drop_of_readByte (mem : Memory) (a : Nat) (b : Byte) (h : readByte mem a = .ok b) :
    ∃ c : Cell, c.val = b ∧ mem.drop a = some c :: mem.drop (a + 1) := by
  obtain ⟨c, hc, hv⟩ := readByte_inv mem a b h
  obtain ⟨hlt, hget⟩ := List.getElem?_eq_some.mp hc
  refine ⟨c, hv, ?_⟩
  rw [List.drop_eq_getElem_cons hlt, hget]

theorem loadCStr_nul (mem : Memory) (p : Nat) (h : readByte mem p = .ok 0) :
    loadCStr mem p = .ok [] := by
  obtain ⟨c, hv, hd⟩ := drop_of_readByte mem p 0 h
  simp [loadCStr, hd, scanCStr, hv]

theorem loadCStr_cons (mem : Memory) (p : Nat) (c : Byte) (s : List Byte)
    (h : readByte mem p = .ok c) (hc : c ≠ 0) (hs : loadCStr mem (p + 1) = .ok s) :
    loadCStr mem p = .ok (c :: s) := by
  obtain ⟨cell, hv, hd⟩ := drop_of_readByte mem p c h
  unfold loadCStr at hs ⊢
  rw [hd]
  cases hsc : scanCStr (List.drop (p + 1) mem) with
  | none => rw [hsc] at hs; simp at hs
  | some s' =>
    rw [hsc] at hs
    have : s' = s := Except.ok.inj hs
    subst this
    simp [scanCStr, hv, hc, hsc]

theorem CStrAt_nil (mem : Memory) (p : Nat) (h : CStrAt mem p []) :
    readByte mem p = .ok 0 := by
  simpa using h.2

theorem CStrAt_cons (mem : Memory) (p : Nat) (c : Byte) (s : List Byte)
    (h : CStrAt mem p (c :: s)) :
    c ≠ 0 ∧ readByte mem p = .ok c ∧ CStrAt mem (p + 1) s := by
  obtain ⟨hall, hend⟩ := h
  have h0 := hall 0 (by simp)
  refine ⟨?_, ?_, ?_, ?_⟩
  · simpa using h0.1
  · simpa using h0.2
  · intro i hi
    have := hall (i + 1) (by simp only [List.length_cons]; omega)
    rw [show p + (i + 1) = p + 1 + i by omega] at this
    simpa using this
  · rw [show p + 1 + s.length = p + (c :: s).length by simp only [List.length_cons]; omega]
    exact hend

/-- Reading a valid NUL-terminated buffer yields its content. -/
theorem loadCStr_of_CStrAt (s : List Byte) : ∀ (mem : Memory) (p : Nat),
    CStrAt mem p s → loadCStr mem p = .ok s := by
  induction s with
  | nil => intro mem p h; exact loadCStr_nul mem p (CStrAt_nil mem p h)
  | cons c s ih =>
    intro mem p h
    obtain ⟨hc, hr, hs⟩ := CStrAt_cons mem p c s h
    exact loadCStr_cons mem p c s hr hc (ih mem (p + 1) hs)

/-- A buffer that agrees with a valid one up to and including its first NUL
is valid with the same content. -/
theorem CStrAt_of_agree (m1 m2 : Memory) (p1 p2 : Nat) (s : List Byte)
    (h1 : CStrAt m1 p1 s)
    (h2 : ∀ i, i < s.length + 1 → readByte m2 (p2 + i) = readByte m1 (p1 + i)) :
    CStrAt m2 p2 s := by
  refine ⟨?_, ?_⟩
  · intro i hi
    rw [h2 i (by omega)]
    exact h1.1 i hi
  · rw [h2 s.length (by omega)]
    exact h1.2

theorem helloFmt_eq :
    bytesOf "Hello, %s!\n" = [72, 101, 108, 108, 111, 44, 32, 37, 115, 33, 10] := by decide

theorem helloParts_eq (s : List Byte) :
    bytesOf "Hello, " ++ s ++ bytesOf "!\n" = 72 :: 101 :: 108 :: 108 :: 111 :: 44 :: 32 :: (s ++ [33, 10]) := by
  have h1 : bytesOf "Hello, " = [72, 101, 108, 108, 111, 44, 32] := by decide
  have h2 : bytesOf "!\n" = [33, 10] := by decide
  rw [h1, h2]
  simp

/-- The run of `hello` on a valid buffer with content `s`. -/
theorem hello_run (st : State) (p : Nat) (s : List Byte) (h : CStrAt st.mem p s) :
    hello p st =
      .ok ((), { st with stdout := st.stdout ++ (bytesOf "Hello, " ++ s ++ bytesOf "!\n") }) := by
  have hl := loadCStr_of_CStrAt s st.mem p h
  rw [helloParts_eq]
  unfold hello printf
  rw [helloFmt_eq]
  simp [printfOut, hl]

/-- The run of `outputarg` on a valid writable location. -/
theorem outputarg_run (e : Endian) (st : State) (p : Nat) (h : ValidIntLoc st.mem p) :
    ∃ m, storeBytes st.mem p (encodeInt e 42) = .ok m ∧
      outputarg e p st = .ok ((), { st with mem := m }) := by
  obtain ⟨hal, hw⟩ := h
  obtain ⟨m, hm⟩ := storeBytes_ok (encodeInt e 42) st.mem p
    (by intro i hi; rw [encodeInt_length] at hi; exact hw i hi)
  exact ⟨m, hm, by simp [outputarg, storeInt, hal, hm]⟩

/-! ## Rounding lemmas -/

theorem log2F_spec (fuel : Nat) : ∀ n, n ≠ 0 → n < 2 ^ fuel →
    2 ^ log2F fuel n ≤ n ∧ n < 2 ^ (log2F fuel n + 1) := by
  induction fuel with
  | zero => intro n h0 h; simp at h; exact absurd h h0
  | succ fuel ih =>
    intro n h0 h
    unfold log2F
    by_cases h2 : n < 2
    · rw [if_pos h2]
      have : n = 1 := by omega
      subst this
      simp
    · rw [if_neg h2]
      have hlt : n / 2 < 2 ^ fuel := by
        rw [pow_succ] at h
        omega
      obtain ⟨h1, h3⟩ := ih (n / 2) (by omega) hlt
      constructor
      · rw [pow_succ]; omega
      · rw [pow_succ]; omega

theorem ilog2_spec (n : Nat) (h0 : n ≠ 0) : 2 ^ ilog2 n ≤ n ∧ n < 2 ^ (ilog2 n + 1) :=
  log2F_spec n n h0 (Nat.lt_two_pow n)

theorem magOrd_fields (e f : Nat) (hf : f < 2 ^ 52) : magOrd (e * 2 ^ 52 + f) = magOf e f := by
  unfold magOrd
  have h1 : (e * 2 ^ 52 + f) / 2 ^ 52 = e := by
    rw [Nat.mul_comm, Nat.mul_add_div (Nat.two_pow_pos 52), Nat.div_eq_of_lt hf, Nat.add_zero]
  have h2 : (e * 2 ^ 52 + f) % 2 ^ 52 = f := by
    rw [Nat.mul_comm, Nat.mul_add_mod, Nat.mod_eq_of_lt hf]
  rw [h1, h2]

/-- The lattice point of ordinal `c * 2^52 + m`. -/
theorem magOrd_lattice (c m : Nat) (hm : m ≤ 2 ^ 53) (hc : c = 0 ∨ 2 ^ 52 ≤ m) :
    magOrd (c * 2 ^ 52 + m) = m * 2 ^ c := by
  by_cases h1 : m < 2 ^ 52
  · have hc0 : c = 0 := by
      rcases hc with hc | hc
      · exact hc
      · omega
    have hk : c * 2 ^ 52 + m = m := by rw [hc0, Nat.zero_mul, Nat.zero_add]
    have hd : m / 2 ^ 52 = 0 := Nat.div_eq_of_lt h1
    have hr : m % 2 ^ 52 = m := Nat.mod_eq_of_lt h1
    rw [hk, hc0, pow_zero, Nat.mul_one]
    unfold magOrd magOf
    rw [hd, hr, if_pos rfl]
  · by_cases h2 : m < 2 ^ 53
    · have hk : c * 2 ^ 52 + m = (c + 1) * 2 ^ 52 + (m - 2 ^ 52) := by
        rw [Nat.add_mul]; omega
      rw [hk, magOrd_fields (c + 1) (m - 2 ^ 52) (by omega)]
      unfold magOf
      rw [if_neg (show ¬ c + 1 = 0 by omega), Nat.add_sub_cancel]
      have hm2 : 2 ^ 52 + (m - 2 ^ 52) = m := by omega
      rw [hm2]
    · have hm' : m = 2 ^ 53 := by omega
      have hk : c * 2 ^ 52 + m = (c + 2) * 2 ^ 52 + 0 := by
        rw [Nat.add_mul, hm']; omega
      rw [hk, magOrd_fields (c + 2) 0 (by omega)]
      unfold magOf
      rw [if_neg (show ¬ c + 2 = 0 by omega), hm']
      have : c + 2 - 1 = c + 1 := by omega
      rw [this, pow_succ]
      ring

theorem magOrd_lt_succ (k : Nat) : magOrd k < magOrd (k + 1) := by
  have hk : k = (k / 2 ^ 52) * 2 ^ 52 + k % 2 ^ 52 := by
    rw [Nat.mul_comm]; exact (Nat.div_add_mod k (2 ^ 52)).symm
  have hf : k % 2 ^ 52 < 2 ^ 52 := Nat.mod_lt _ (Nat.two_pow_pos 52)
  generalize k / 2 ^ 52 = e at hk
  generalize k % 2 ^ 52 = f at hk hf
  subst hk
  rw [magOrd_fields e f hf]
  by_cases h1 : f + 1 < 2 ^ 52
  · rw [Nat.add_assoc, magOrd_fields e (f + 1) h1]
    unfold magOf
    by_cases he : e = 0
    · simp [he]
    · rw [if_neg he, if_neg he]
      apply Nat.mul_lt_mul_of_pos_right (by omega) (Nat.two_pow_pos _)
  · have hf' : f = 2 ^ 52 - 1 := by omega
    have hk : e * 2 ^ 52 + f + 1 = (e + 1) * 2 ^ 52 + 0 := by
      rw [Nat.add_mul, hf']; omega
    rw [hk, magOrd_fields (e + 1) 0 (by omega)]
    unfold magOf
    rw [if_neg (show ¬ e + 1 = 0 by omega), Nat.add_sub_cancel]
    by_cases he : e = 0
    · subst he
      rw [if_pos rfl, pow_zero]
      omega
    · rw [if_neg he]
      have : e = (e - 1) + 1 := by omega
      nth_rewrite 2 [this]
      rw [pow_succ]
      have hp : 0 < 2 ^ (e - 1) := Nat.two_pow_pos _
      have : (2 ^ 52 + f) * 2 ^ (e - 1) < (2 ^ 52 + 0) * (2 ^ (e - 1) * 2) := by
        rw [hf']
        have : (2 ^ 52 + 0) * (2 ^ (e - 1) * 2) = (2 ^ 53) * 2 ^ (e - 1) := by ring
        rw [this]
        apply Nat.mul_lt_mul_of_pos_right (by omega) hp
      exact this

theorem magOrd_strictMono : StrictMono magOrd :=
  strictMono_nat_of_lt_succ magOrd_lt_succ


theorem latt_strictMono : StrictMono latt := by
  intro a b h
  unfold latt
  exact Nat.mul_lt_mul_of_pos_right (magOrd_strictMono h) (pow_pos (by decide) 1074)

theorem latt_lattice (c m : Nat) (hm : m ≤ 2 ^ 53) (hc : c = 0 ∨ 2 ^ 52 ≤ m) :
    latt (c * 2 ^ 52 + m) = m * 2 ^ (1074 + c) := by
  unfold latt
  rw [magOrd_lattice c m hm hc, pow_add]
  ring

/-- The quotient, remainder and binade of `roundOrd`. -/
theorem roundOrd_bracket (P : Nat) :
    ∃ c m0 r q, q = 2 ^ (1074 + c) ∧ P = m0 * q + r ∧ r < q ∧ m0 + 1 ≤ 2 ^ 53 ∧
      (c = 0 ∨ 2 ^ 52 ≤ m0) ∧ (c = ilog2 P - 1126) ∧
      roundOrd P = c * 2 ^ 52 + (if q < 2 * r ∨ (2 * r = q ∧ m0 % 2 = 1) then m0 + 1 else m0) := by
  have hq : 0 < 2 ^ (1074 + (ilog2 P - 1126)) := pow_pos (by decide) _
  have hmod : P % 2 ^ (1074 + (ilog2 P - 1126)) < 2 ^ (1074 + (ilog2 P - 1126)) :=
    Nat.mod_lt P hq
  have hround : roundOrd P = (ilog2 P - 1126) * 2 ^ 52 +
      (if 2 ^ (1074 + (ilog2 P - 1126)) < 2 * (P % 2 ^ (1074 + (ilog2 P - 1126))) ∨
          (2 * (P % 2 ^ (1074 + (ilog2 P - 1126))) = 2 ^ (1074 + (ilog2 P - 1126)) ∧
            P / 2 ^ (1074 + (ilog2 P - 1126)) % 2 = 1)
        then P / 2 ^ (1074 + (ilog2 P - 1126)) + 1 else P / 2 ^ (1074 + (ilog2 P - 1126))) := by
    unfold roundOrd
    simp only
  refine ⟨ilog2 P - 1126, P / 2 ^ (1074 + (ilog2 P - 1126)), P % 2 ^ (1074 + (ilog2 P - 1126)),
    2 ^ (1074 + (ilog2 P - 1126)), rfl, ?_, hmod, ?_, ?_, rfl, hround⟩
  · rw [Nat.mul_comm]; exact (Nat.div_add_mod P _).symm
  · -- the quotient is below 2^53
    have hlt : P < 2 ^ 53 * 2 ^ (1074 + (ilog2 P - 1126)) := by
      by_cases h0 : P = 0
      · exact lt_of_eq_of_lt h0 (Nat.mul_pos (pow_pos (by decide) 53) hq)
      · have h2 := (ilog2_spec P h0).2
        refine lt_of_lt_of_le h2 ?_
        rw [← pow_add]
        exact Nat.pow_le_pow_right (by decide) (by omega)
    have := (Nat.div_lt_iff_lt_mul hq).mpr hlt
    omega
  · by_cases hc : ilog2 P - 1126 = 0
    · exact Or.inl hc
    · right
      have h0 : P ≠ 0 := by
        intro h
        rw [h] at hc
        exact hc (by simp [ilog2, log2F])
      have h1 := (ilog2_spec P h0).1
      rw [Nat.le_div_iff_mul_le hq, ← pow_add]
      refine le_trans (Nat.pow_le_pow_right (by decide) ?_) h1
      omega


/-- The two lattice points around `P` and the choice `roundOrd` makes. -/
theorem roundOrd_cases (P : Nat) :
    ∃ k0 A q r, P = A + r ∧ r < q ∧ latt k0 = A ∧ latt (k0 + 1) = A + q ∧
      ((q < 2 * r ∨ (2 * r = q ∧ k0 % 2 = 1)) ∧ roundOrd P = k0 + 1 ∨
       (¬ (q < 2 * r ∨ (2 * r = q ∧ k0 % 2 = 1))) ∧ roundOrd P = k0) := by
  obtain ⟨c, m0, r, q, hq, hP, hr, hm, hc, _, hround⟩ := roundOrd_bracket P
  have hA : latt (c * 2 ^ 52 + m0) = m0 * q := by
    rw [hq]; exact latt_lattice c m0 (by omega) hc
  have hB : latt (c * 2 ^ 52 + m0 + 1) = m0 * q + q := by
    rw [hq, Nat.add_assoc, latt_lattice c (m0 + 1) hm (by omega)]
    ring
  have hpar : (c * 2 ^ 52 + m0) % 2 = m0 % 2 := by omega
  refine ⟨c * 2 ^ 52 + m0, m0 * q, q, r, hP, hr, hA, hB, ?_⟩
  rw [hpar]
  by_cases hup : q < 2 * r ∨ (2 * r = q ∧ m0 % 2 = 1)
  · left
    refine ⟨hup, ?_⟩
    rw [hround, if_pos hup, Nat.add_assoc]
  · right
    refine ⟨hup, ?_⟩
    rw [hround, if_neg hup]

theorem roundOrd_nearest (P j : Nat) :
    absDiff (latt (roundOrd P)) P ≤ absDiff (latt j) P := by
  obtain ⟨k0, A, q, r, hP, hr, hA, hB, hcase⟩ := roundOrd_cases P
  have hj : latt j ≤ A ∨ A + q ≤ latt j := by
    by_cases h : j ≤ k0
    · left; rw [← hA]; exact latt_strictMono.monotone h
    · right; rw [← hB]; exact latt_strictMono.monotone (by omega)
  generalize latt j = Sj at hj ⊢
  rcases hcase with ⟨hup, hk⟩ | ⟨hup, hk⟩
  · rw [hk, hB]; unfold absDiff; omega
  · rw [hk, hA]; unfold absDiff; omega

theorem roundOrd_tie (P j : Nat) (hne : j ≠ roundOrd P)
    (heq : absDiff (latt j) P = absDiff (latt (roundOrd P)) P) : roundOrd P % 2 = 0 := by
  obtain ⟨k0, A, q, r, hP, hr, hA, hB, hcase⟩ := roundOrd_cases P
  have hj : (j < k0 ∧ latt j < A) ∨ j = k0 ∨ j = k0 + 1 ∨ (k0 + 1 < j ∧ A + q < latt j) := by
    by_cases h1 : j < k0
    · left; rw [← hA]; exact ⟨h1, latt_strictMono h1⟩
    · by_cases h2 : k0 + 1 < j
      · right; right; right; rw [← hB]; exact ⟨h2, latt_strictMono h2⟩
      · omega
  rcases hcase with ⟨hup, hk⟩ | ⟨hup, hk⟩
  · rw [hk, hB] at heq
    rw [hk] at hne ⊢
    rcases hj with ⟨_, h⟩ | h | h | ⟨_, h⟩
    · generalize latt j = Sj at heq h; unfold absDiff at heq; omega
    · rw [h, hA] at heq; unfold absDiff at heq; omega
    · exact absurd h hne
    · generalize latt j = Sj at heq h; unfold absDiff at heq; omega
  · rw [hk, hA] at heq
    rw [hk] at hne ⊢
    rcases hj with ⟨_, h⟩ | h | h | ⟨_, h⟩
    · generalize latt j = Sj at heq h; unfold absDiff at heq; omega
    · exact absurd h hne
    · rw [h, hB] at heq; unfold absDiff at heq; omega
    · generalize latt j = Sj at heq h; unfold absDiff at heq; omega


theorem latt_top : latt (2047 * 2 ^ 52) = 2 ^ 54 * 2 ^ 3118 := by
  have hk : 2047 * 2 ^ 52 = 2045 * 2 ^ 52 + 2 ^ 53 := by omega
  rw [hk, latt_lattice 2045 (2 ^ 53) (le_refl _) (Or.inr (by omega))]
  have : 1074 + 2045 = 1 + 3118 := by omega
  rw [this, pow_add]
  ring

theorem latt_max : latt (2047 * 2 ^ 52 - 1) = (2 ^ 54 - 2) * 2 ^ 3118 := by
  have hk : 2047 * 2 ^ 52 - 1 = 2045 * 2 ^ 52 + (2 ^ 53 - 1) := by omega
  rw [hk, latt_lattice 2045 (2 ^ 53 - 1) (by omega) (Or.inr (by omega))]
  have : 1074 + 2045 = 1 + 3118 := by omega
  rw [this, pow_add]
  ring

theorem threshold_eq : 2 ^ 3172 - 2 ^ 3118 = (2 ^ 54 - 1) * 2 ^ 3118 := by
  have : (2 : Nat) ^ 3172 = 2 ^ 54 * 2 ^ 3118 := by rw [← pow_add]
  rw [this, Nat.sub_mul, Nat.one_mul]

/-- Overflow: the rounded ordinal leaves the finite range exactly when `P`
reaches `2^1024 - 2^970`, in units of `2^-2148`. -/
theorem roundOrd_overflow_iff (P : Nat) :
    2047 * 2 ^ 52 ≤ roundOrd P ↔ 2 ^ 3172 - 2 ^ 3118 ≤ P := by
  rw [threshold_eq]
  have hpos : 0 < 2 ^ 3118 := pow_pos (by decide) 3118
  constructor
  · intro hk
    by_contra hP
    have hn := roundOrd_nearest P (2047 * 2 ^ 52 - 1)
    have hmono := latt_strictMono.monotone hk
    rw [latt_top] at hmono
    rw [latt_max] at hn
    generalize latt (roundOrd P) = Sk at hn hmono
    generalize (2 : Nat) ^ 3118 = h at *
    unfold absDiff at hn
    simp only [Nat.sub_mul, Nat.one_mul] at hn hP
    omega
  · intro hP
    by_contra hk
    have hk' : roundOrd P ≤ 2047 * 2 ^ 52 - 1 := by omega
    have hn := roundOrd_nearest P (2047 * 2 ^ 52)
    have hmono := latt_strictMono.monotone hk'
    rw [latt_max] at hmono
    rw [latt_top] at hn
    by_cases heq : roundOrd P = 2047 * 2 ^ 52 - 1
    · have ht := roundOrd_tie P (2047 * 2 ^ 52) (by omega)
      rw [latt_top, heq, latt_max] at ht
      rw [heq, latt_max] at hn
      have hodd : ¬ ((2047 * 2 ^ 52 - 1) % 2 = 0) := by omega
      apply hodd
      apply ht
      generalize (2 : Nat) ^ 3118 = h at *
      unfold absDiff at hn ⊢
      simp only [Nat.sub_mul, Nat.one_mul] at hn hP ⊢
      omega
    · have hlt : roundOrd P < 2047 * 2 ^ 52 - 1 := by omega
      have hs := latt_strictMono hlt
      rw [latt_max] at hs
      generalize latt (roundOrd P) = Sk at hn hs
      generalize (2 : Nat) ^ 3118 = h at *
      unfold absDiff at hn
      simp only [Nat.sub_mul, Nat.one_mul] at hn hP hs
      omega


theorem ordOf_lt (e : Fin 2047) (f : Fin (2 ^ 52)) : ordOf e f < 2047 * 2 ^ 52 := by
  have := e.isLt
  have := f.isLt
  unfold ordOf
  omega

theorem latt_ordOf (e : Fin 2047) (f : Fin (2 ^ 52)) :
    latt (ordOf e f) = magOf e f * 2 ^ 1074 := by
  unfold latt ordOf
  rw [magOrd_fields e.val f.val f.isLt]

theorem ordOf_inj (e e' : Fin 2047) (f f' : Fin (2 ^ 52)) (h : ordOf e f = ordOf e' f') :
    (e, f) = (e', f') := by
  have := f.isLt
  have := f'.isLt
  unfold ordOf at h
  have h1 : e.val = e'.val := by omega
  have h2 : f.val = f'.val := by omega
  rw [Fin.ext h1, Fin.ext h2]

theorem ofOrd_ordOf (s : Bool) (e : Fin 2047) (f : Fin (2 ^ 52)) :
    ofOrd s (ordOf e f) = .fin s e f := by
  have hlt := ordOf_lt e f
  have hf := f.isLt
  unfold ofOrd
  rw [dif_pos hlt]
  have h1 : ordOf e f / 2 ^ 52 = e.val := by unfold ordOf; omega
  have h2 : ordOf e f % 2 ^ 52 = f.val := by unfold ordOf; omega
  congr 1
  · exact Fin.ext h1
  · exact Fin.ext h2

theorem ofOrd_fin (s : Bool) (k : Nat) (h : k < 2047 * 2 ^ 52) :
    ∃ e f, ofOrd s k = .fin s e f ∧ ordOf e f = k := by
  refine ⟨⟨k / 2 ^ 52, Nat.div_lt_of_lt_mul (by rw [Nat.mul_comm]; exact h)⟩,
    ⟨k % 2 ^ 52, Nat.mod_lt _ (Nat.two_pow_pos 52)⟩, ?_, ?_⟩
  · unfold ofOrd; rw [dif_pos h]
  · unfold ordOf; simp only; omega

/-- The result of `roundOrd`, packed, is the IEEE rounding of `P`. -/
theorem roundsTo_ofOrd (s : Bool) (P : Nat) : RoundsTo s P (ofOrd s (roundOrd P)) := by
  constructor
  · intro hP
    have := (roundOrd_overflow_iff P).mpr hP
    unfold ofOrd
    rw [dif_neg (by omega)]
  · intro hP
    have hk : roundOrd P < 2047 * 2 ^ 52 := by
      by_contra h
      have := (roundOrd_overflow_iff P).mp (by omega)
      omega
    obtain ⟨e, f, hr, hord⟩ := ofOrd_fin s (roundOrd P) hk
    refine ⟨e, f, hr, ?_, ?_⟩
    · intro e' f'
      rw [← latt_ordOf, ← latt_ordOf, hord]
      exact roundOrd_nearest P (ordOf e' f')
    · intro e' f' hne heq
      rw [← latt_ordOf, ← latt_ordOf, hord] at heq
      have hne' : ordOf e' f' ≠ roundOrd P := by
        intro h
        rw [← hord] at h
        exact hne (ordOf_inj e' e f' f h)
      have := roundOrd_tie P (ordOf e' f') hne' heq
      have hf := f.isLt
      rw [← hord] at this
      unfold ordOf at this
      omega

/-- The IEEE rounding of `P` is unique. -/
theorem roundsTo_unique (s : Bool) (P : Nat) (r : Double) (h : RoundsTo s P r) :
    r = ofOrd s (roundOrd P) := by
  by_cases hP : 2 ^ 3172 - 2 ^ 3118 ≤ P
  · rw [h.1 hP, (roundsTo_ofOrd s P).1 hP]
  · obtain ⟨e, f, hr, hnear, htie⟩ := h.2 (by omega)
    obtain ⟨e2, f2, hr2, hnear2, htie2⟩ := (roundsTo_ofOrd s P).2 (by omega)
    rw [hr, hr2]
    by_contra hne
    have hne' : (e, f) ≠ (e2, f2) := by
      intro h
      apply hne
      rw [(Prod.mk.inj h).1, (Prod.mk.inj h).2]
    have hd : absDiff (magOf e f * 2 ^ 1074) P = absDiff (magOf e2 f2 * 2 ^ 1074) P :=
      le_antisymm (hnear e2 f2) (hnear2 e f)
    have hev : f.val % 2 = 0 := htie e2 f2 (Ne.symm hne') hd.symm
    have hev2 : f2.val % 2 = 0 := htie2 e f hne' hd
    -- both ordinals are among the two neighbours of `P`
    obtain ⟨k0, A, q, r', hPA, hr', hA, hB, hcase⟩ := roundOrd_cases P
    have hk0 : k0 < 2047 * 2 ^ 52 := by
      have hk : roundOrd P < 2047 * 2 ^ 52 := by
        by_contra h
        have := (roundOrd_overflow_iff P).mp (by omega)
        omega
      rcases hcase with ⟨_, h⟩ | ⟨_, h⟩ <;> omega
    have hnb : ∀ (e' : Fin 2047) (f' : Fin (2 ^ 52)),
        (∀ (e'' : Fin 2047) (f'' : Fin (2 ^ 52)),
          absDiff (magOf e' f' * 2 ^ 1074) P ≤ absDiff (magOf e'' f'' * 2 ^ 1074) P) →
        (ordOf e' f' = k0 ∨ ordOf e' f' = k0 + 1) := by
      intro e' f' hn
      by_contra hcon
      have hlt' := ordOf_lt e' f'
      by_cases h1 : ordOf e' f' < k0
      · obtain ⟨e3, f3, _, ho3⟩ := ofOrd_fin s k0 (by omega)
        have h3 := hn e3 f3
        rw [← latt_ordOf, ← latt_ordOf, ho3, hA] at h3
        have hs := latt_strictMono h1
        rw [hA] at hs
        generalize latt (ordOf e' f') = Sj at h3 hs
        unfold absDiff at h3
        omega
      · have h2 : k0 + 1 < ordOf e' f' := by omega
        obtain ⟨e3, f3, _, ho3⟩ := ofOrd_fin s (k0 + 1) (by omega)
        have h3 := hn e3 f3
        rw [← latt_ordOf, ← latt_ordOf, ho3, hB] at h3
        have hs := latt_strictMono h2
        rw [hB] at hs
        generalize latt (ordOf e' f') = Sj at h3 hs
        unfold absDiff at h3
        omega
    have h1 := hnb e f hnear
    have h2 := hnb e2 f2 hnear2
    have hoe : ordOf e f ≠ ordOf e2 f2 := fun h => hne' (ordOf_inj e e2 f f2 h)
    have hf := f.isLt
    have hf2 := f2.isLt
    unfold ordOf at h1 h2 hoe
    omega

/-- The declarative product and `Double.mul` name the same value. -/
theorem isIEEEProduct_iff (x y r : Double) : IsIEEEProduct x y r ↔ r = Double.mul x y := by
  cases x with
  | nan => simp [IsIEEEProduct, Double.mul]
  | inf s =>
    cases y with
    | nan => simp [IsIEEEProduct, Double.mul]
    | inf t => simp [IsIEEEProduct, Double.mul]
    | fin t e f =>
      by_cases h : magOf e f = 0 <;> simp [IsIEEEProduct, Double.mul, h]
  | fin s e f =>
    cases y with
    | nan => simp [IsIEEEProduct, Double.mul]
    | inf t =>
      by_cases h : magOf e f = 0 <;> simp [IsIEEEProduct, Double.mul, h]
    | fin t e' f' =>
      simp only [IsIEEEProduct, Double.mul]
      constructor
      · exact roundsTo_unique _ _ r
      · intro h
        rw [h]
        exact roundsTo_ofOrd _ _

/-- A double of exponent field at least 1535 has magnitude at least `2^512`. -/
theorem magOf_ge_of_exp (e f : Nat) (h : 1535 ≤ e) : 2 ^ 1586 ≤ magOf e f := by
  unfold magOf
  rw [if_neg (by omega)]
  have e1 : 1586 = 52 + 1534 := by omega
  rw [e1, pow_add]
  have h2 : 1534 ≤ e - 1 := by omega
  have hp : 0 < 2 := by decide
  have h3 : 2 ^ 52 ≤ 2 ^ 52 + f := Nat.le_add_right (2 ^ 52) f
  have key : ∀ a b : Nat, a ≤ b → 2 ^ a ≤ 2 ^ b := fun _ _ hab => Nat.pow_le_pow_right hp hab
  exact Nat.mul_le_mul h3 (key 1534 (e - 1) h2)

/-- The product of two magnitudes of at least `2^512` rounds to infinity. -/
theorem mul_overflow (s t : Bool) (e e' : Fin 2047) (f f' : Fin (2 ^ 52))
    (h : 2 ^ 1586 ≤ magOf e f) (h' : 2 ^ 1586 ≤ magOf e' f') :
    Double.mul (.fin s e f) (.fin t e' f') = .inf (xor s t) := by
  have hP : 2 ^ 3172 - 2 ^ 3118 ≤ magOf e f * magOf e' f' := by
    have e1 : 3172 = 1586 + 1586 := by omega
    have h1 : 2 ^ 1586 * 2 ^ 1586 ≤ magOf e f * magOf e' f' := Nat.mul_le_mul h h'
    rw [← pow_add, ← e1] at h1
    exact le_trans (Nat.sub_le _ _) h1
  exact (roundsTo_ofOrd (xor s t) _).1 hP

/-! ## The claims -/

/-- C1: for every double `x`, `sqr(x)` returns exactly the IEEE-754 product
of `x` with itself: the value it returns is the product as the standard
defines it (the exact product rounded once, to nearest, ties to even) and no
other value is; in particular `sqr(0.0) = 0.0` and `sqr(-2.0) = 4.0`. -/
theorem sqr_returns_ieee_product (x : Double) (st : State) :
    (∃ r, sqr x st = .ok (r, st) ∧ IsIEEEProduct x x r ∧
      ∀ r', IsIEEEProduct x x r' → r' = r) ∧
    sqr Double.posZero st = .ok (Double.posZero, st) ∧
    sqr Double.negTwo st = .ok (Double.four, st) := by
  refine ⟨⟨Double.mul x x, rfl, (isIEEEProduct_iff x x _).mpr rfl,
    fun r' h => (isIEEEProduct_iff x x r').mp h⟩, ?_, ?_⟩
  · have h : Double.mul Double.posZero Double.posZero = Double.posZero := by decide!
    simp only [sqr, h]
  · have h : Double.mul Double.negTwo Double.negTwo = Double.four := by decide!
    simp only [sqr, h]

/-- C2: for every valid writable `int` location `p` and every prior value `v`
stored at `p`, `outputarg(p)` returns and the value stored at `p` afterwards
is exactly 42, whatever `v` was. -/
theorem outputarg_stores_42 (e : Endian) (st : State) (p : Nat) (v : Int)
    (hp : ValidIntLoc st.mem p) (_hv : loadInt e st.mem p = .ok v) :
    ∃ st', outputarg e p st = .ok ((), st') ∧ loadInt e st'.mem p = .ok 42 := by
  obtain ⟨m, hm, hrun⟩ := outputarg_run e st p hp
  refine ⟨{ st with mem := m }, hrun, ?_⟩
  obtain ⟨_, _, _, hload⟩ := storeBytes_inv (encodeInt e 42) st.mem m p hm
  rw [encodeInt_length] at hload
  simp only [loadInt, hp.1, if_true, hload, decode_encode_42]

theorem outputarg_stores_42_witness :
    ValidIntLoc demoState.mem 4 ∧ loadInt .big demoState.mem 4 = .ok 117901063 ∧
      ∃ st', outputarg .big 4 demoState = .ok ((), st') ∧ loadInt .big st'.mem 4 = .ok 42 :=
  ⟨by decide, by decide,
    outputarg_stores_42 .big demoState 4 117901063 (by decide) (by decide)⟩

/-- C3: for every valid NUL-terminated buffer with content `s`, `hello`
returns having appended exactly `"Hello, " ++ s ++ "!\n"` to standard output
and changed nothing else; for `s = "World"` that is `"Hello, World!\n"`. -/
theorem hello_appends_greeting (st : State) (p : Nat) (s : List Byte)
    (h : CStrAt st.mem p s) :
    hello p st =
      .ok ((), { mem := st.mem,
                 stdout := st.stdout ++ (bytesOf "Hello, " ++ s ++ bytesOf "!\n") }) :=
  hello_run st p s h

theorem hello_appends_greeting_witness :
    CStrAt demoState.mem 8 (bytesOf "World") ∧
      hello 8 demoState =
        .ok ((), { mem := demoState.mem,
                   stdout := demoState.stdout ++ bytesOf "Hello, World!\n" }) :=
  ⟨by decide, hello_appends_greeting demoState 8 (bytesOf "World") (by decide)⟩

/-- C4: on a valid writable `int` location `p`, `outputarg(p)` changes only
the four bytes of the `int` at `p`: standard output, the size of memory, every
byte outside `[p, p+4)` and every write permission are as before. -/
theorem outputarg_frame (e : Endian) (st : State) (p : Nat) (hp : ValidIntLoc st.mem p) :
    ∃ st', outputarg e p st = .ok ((), st') ∧ st'.stdout = st.stdout ∧
      st'.mem.length = st.mem.length ∧
      (∀ a, a < p ∨ p + intSize ≤ a → st'.mem[a]? = st.mem[a]?) ∧
      (∀ a, writableAt st'.mem a = writableAt st.mem a) := by
  obtain ⟨m, hm, hrun⟩ := outputarg_run e st p hp
  obtain ⟨hlen, hperm, hframe, _⟩ := storeBytes_inv (encodeInt e 42) st.mem m p hm
  rw [encodeInt_length] at hframe
  exact ⟨{ st with mem := m }, hrun, rfl, hlen, hframe, hperm⟩

theorem outputarg_frame_witness :
    ValidIntLoc demoState.mem 4 ∧
    ∃ st', outputarg .little 4 demoState = .ok ((), st') ∧ st'.stdout = demoState.stdout ∧
      st'.mem.length = demoState.mem.length ∧
      (∀ a, a < 4 ∨ 4 + intSize ≤ a → st'.mem[a]? = demoState.mem[a]?) ∧
      (∀ a, writableAt st'.mem a = writableAt demoState.mem a) :=
  ⟨by decide, outputarg_frame .little demoState 4 (by decide)⟩

/-- C5: `sqr` is pure and total: for every double `x` and every two states
it returns without a fault, leaves each state (memory and standard output) as
it was, and returns in both the same value, which depends on `x` alone: NaN
for a NaN, `+infinity` for an infinity of either sign, `+0.0` for a zero of
either sign. -/
theorem sqr_pure_total (x : Double) (st st' : State) :
    ∃ v, sqr x st = .ok (v, st) ∧ sqr x st' = .ok (v, st') ∧
      (x = .nan → v = .nan) ∧
      (∀ s, x = .inf s → v = .inf false) ∧
      (∀ s, x = .fin s 0 0 → v = .fin false 0 0) := by
  refine ⟨Double.mul x x, rfl, rfl, ?_, ?_, ?_⟩
  · intro h; rw [h]; rfl
  · intro s h; rw [h]; simp [Double.mul]
  · intro s h; rw [h]; cases s <;> decide!

/-- C6: on a valid NUL-terminated buffer `hello` returns with memory (the
name buffer included) unchanged and the earlier standard output a prefix of
the new one. -/
theorem hello_frame (st : State) (p : Nat) (h : ∃ s, CStrAt st.mem p s) :
    ∃ st', hello p st = .ok ((), st') ∧ st'.mem = st.mem ∧ st.stdout <+: st'.stdout := by
  obtain ⟨s, hs⟩ := h
  exact ⟨_, hello_run st p s hs, rfl, List.prefix_append _ _⟩

theorem hello_frame_witness :
    (∃ s, CStrAt demoState.mem 8 s) ∧
    ∃ st', hello 8 demoState = .ok ((), st') ∧ st'.mem = demoState.mem ∧
      demoState.stdout <+: st'.stdout :=
  ⟨⟨bytesOf "World", by decide⟩, hello_frame demoState 8 ⟨bytesOf "World", by decide⟩⟩

/-- C7: for every finite double `x` with `|x| >= 2^512`, that is of
magnitude at least `2^1586` in units of `2^-1074`, of either sign, `sqr(x)`
returns `+infinity`; `1e200` and `-1e200` are such doubles. -/
theorem sqr_overflows_to_infinity (s : Bool) (e : Fin 2047) (f : Fin (2 ^ 52)) (st : State)
    (h : 2 ^ 1586 ≤ magOf e f) :
    sqr (.fin s e f) st = .ok (.inf false, st) := by
  have hm := mul_overflow s s e e f f h h
  rw [Bool.xor_self] at hm
  simp only [sqr, hm]

theorem sqr_overflows_to_infinity_witness :
    2 ^ 1586 ≤ magOf (1687 : Fin 2047) (0x4E718D7D7625A : Fin (2 ^ 52)) ∧
    sqr (Double.tenPow200 false) demoState = .ok (.inf false, demoState) ∧
    sqr (Double.tenPow200 true) demoState = .ok (.inf false, demoState) :=
  ⟨magOf_ge_of_exp _ _ (by decide),
    sqr_overflows_to_infinity false 1687 0x4E718D7D7625A demoState
      (magOf_ge_of_exp _ _ (by decide)),
    sqr_overflows_to_infinity true 1687 0x4E718D7D7625A demoState
      (magOf_ge_of_exp _ _ (by decide))⟩

/-- C9: if the buffer at `p1` is a valid C string with content `s` (its first
NUL at offset `s.length`) and the buffer at `p2`, in any state, agrees with
it at every offset up to and including that NUL, then both calls of `hello`
return having appended the same bytes `"Hello, " ++ s ++ "!\n"`, which hold
nothing of what follows the NUL. -/
theorem hello_output_same_up_to_nul (st1 st2 : State) (p1 p2 : Nat) (s : List Byte)
    (h1 : CStrAt st1.mem p1 s)
    (h2 : ∀ i, i < s.length + 1 → readByte st2.mem (p2 + i) = readByte st1.mem (p1 + i)) :
    ∃ out, hello p1 st1 = .ok ((), { st1 with stdout := st1.stdout ++ out }) ∧
      hello p2 st2 = .ok ((), { st2 with stdout := st2.stdout ++ out }) ∧
      out = bytesOf "Hello, " ++ s ++ bytesOf "!\n" :=
  ⟨_, hello_run st1 p1 s h1,
    hello_run st2 p2 s (CStrAt_of_agree st1.mem st2.mem p1 p2 s h1 h2), rfl⟩

theorem hello_output_same_up_to_nul_witness :
    CStrAt demoState.mem 8 (bytesOf "World") ∧
    (∀ i, i < (bytesOf "World").length + 1 →
      readByte otherState.mem (1 + i) = readByte demoState.mem (8 + i)) ∧
    readByte otherState.mem 7 ≠ readByte demoState.mem 14 ∧
    ∃ out, hello 8 demoState = .ok ((), { demoState with stdout := demoState.stdout ++ out }) ∧
      hello 1 otherState = .ok ((), { otherState with stdout := otherState.stdout ++ out }) ∧
      out = bytesOf "Hello, " ++ bytesOf "World" ++ bytesOf "!\n" :=
  ⟨by decide, by decide, by decide,
    hello_output_same_up_to_nul demoState otherState 8 1 (bytesOf "World")
      (by decide) (by decide)⟩

/-- C10: `outputarg` is idempotent: on a valid writable `int` location a
second call right after the first returns and leaves exactly the state the
first call left. -/
theorem outputarg_idempotent (e : Endian) (st : State) (p : Nat)
    (hp : ValidIntLoc st.mem p) :
    ∃ st', outputarg e p st = .ok ((), st') ∧ outputarg e p st' = .ok ((), st') := by
  obtain ⟨m, hm, hrun⟩ := outputarg_run e st p hp
  refine ⟨{ st with mem := m }, hrun, ?_⟩
  have hagain := storeBytes_again (encodeInt e 42) st.mem m p hm
  simp [outputarg, storeInt, hp.1, hagain]

theorem outputarg_idempotent_witness :
    ValidIntLoc demoState.mem 4 ∧
    ∃ st', outputarg .little 4 demoState = .ok ((), st') ∧
      outputarg .little 4 st' = .ok ((), st') :=
  ⟨by decide, outputarg_idempotent .little demoState 4 (by decide)⟩

end Hello
